import Mathlib

/-!
Verification of the specter divide-and-conquer 2D extraction engine
(`src/py/specter/extract/ex2d_patch_gpu.py` and
`src/py/specter/extract/ex2d_patch_gpu_matrix.py`).

Float64 values are modelled by exact rational arithmetic (`ℚ`): every IEEE
double is a rational number, and the claims under study are about the exact
algebraic content of the computations.  Opaque numerical kernels that the
source calls into (`scipy.linalg.eigh`, `np.sqrt`, the linear-system solver)
are modelled as explicit function parameters; theorems that need them to
behave like the mathematical eigendecomposition / square root / solver state
those facts as hypotheses or verify them on the concrete inputs used.

Vectors are modelled as `ℕ → ℚ` and matrices as `ℕ → ℕ → ℚ` together with an
explicit dimension, sums running over `Finset.range`.
-/

/-- `sys.float_info.epsilon` for 64-bit floats: 2⁻⁵². -/
def machineEps : ℚ := 1 / 2 ^ 52

/-- `np.max` over the first `n` entries of a vector (undefined shape for
`n = 0`; the source never takes a max of an empty array on the paths
modelled here, and theorems carry `0 < n`). -/
def npmax (n : ℕ) (f : ℕ → ℚ) : ℚ :=
  (List.range n).foldl (fun acc i => max acc (f i)) (f 0)

theorem foldl_max_le_of_le_init (f : ℕ → ℚ) (x : ℚ) :
    ∀ (l : List ℕ) (a : ℚ), x ≤ a → x ≤ l.foldl (fun acc j => max acc (f j)) a := by
  intro l
  induction l with
  | nil => intro a h; exact h
  | cons d t ih => intro a h; exact ih _ (le_trans h (le_max_left _ _))

theorem npmax_le (n : ℕ) (f : ℕ → ℚ) (i : ℕ) (hi : i < n) : f i ≤ npmax n f := by
  have key : ∀ l : List ℕ, ∀ a : ℚ, i ∈ l → f i ≤ l.foldl (fun acc j => max acc (f j)) a := by
    intro l
    induction l with
    | nil => intro a h; cases h
    | cons b t ih =>
      intro a h
      rcases List.mem_cons.mp h with h | h
      · subst h
        exact foldl_max_le_of_le_init f (f i) t _ (le_max_right _ _)
      · exact ih _ h
  exact key (List.range n) (f 0) (List.mem_range.mpr hi)

theorem npmax_mem (n : ℕ) (f : ℕ → ℚ) (hn : 0 < n) : ∃ j < n, npmax n f = f j := by
  have key : ∀ l : List ℕ, ∀ j0 : ℕ,
      ∃ j, (j ∈ l ∨ j = j0) ∧ l.foldl (fun acc i => max acc (f i)) (f j0) = f j := by
    intro l
    induction l with
    | nil => intro j0; exact ⟨j0, Or.inr rfl, rfl⟩
    | cons b t ih =>
      intro j0
      rcases le_total (f j0) (f b) with h | h
      · obtain ⟨j, hj, hfold⟩ := ih b
        refine ⟨j, ?_, ?_⟩
        · rcases hj with hj | hj
          · exact Or.inl (List.mem_cons_of_mem _ hj)
          · exact Or.inl (hj ▸ List.mem_cons_self _ _)
        · simpa [max_eq_right h] using hfold
      · obtain ⟨j, hj, hfold⟩ := ih j0
        refine ⟨j, ?_, ?_⟩
        · rcases hj with hj | hj
          · exact Or.inl (List.mem_cons_of_mem _ hj)
          · exact Or.inr hj
        · simpa [max_eq_left h] using hfold
  obtain ⟨j, hj, hfold⟩ := key (List.range n) 0
  refine ⟨j, ?_, by simpa [npmax] using hfold⟩
  rcases hj with hj | hj
  · exact List.mem_range.mp hj
  · exact hj ▸ hn

/-! ## SubbundleSplitter: `split_bundle` (both variants, identical code)

`split_bundle(bundlesize, n)` partitions `[0, bundlesize)` into `n`
subbundles and builds overlap-padded extraction index lists. -/

/-- Section sizes of `np.array_split(np.arange(bundlesize), n)`: the first
`bundlesize % n` sections get `bundlesize / n + 1` elements, the rest
`bundlesize / n`. -/
def array_split_sizes (bundlesize n : ℕ) : List ℕ :=
  (List.range n).map (fun i => if i < bundlesize % n then bundlesize / n + 1 else bundlesize / n)

/-- One step stream of the single left-to-right swap pass: `a` is the value
currently sitting at position `i` when the loop compares it with the next
entry `b`; on `a > b` the pair is swapped (so `a` moves on), else `b` becomes
the carried value. -/
def bubble_aux (a : ℕ) : List ℕ → List ℕ
  | [] => [a]
  | b :: rest => if b < a then b :: bubble_aux a rest else a :: bubble_aux b rest

/-- The single left-to-right swap pass over `n_per_subbundle`: whenever
`n_per_subbundle[i] > n_per_subbundle[i+1]` the two are swapped, moving any
oversized group toward the end (so undersized groups sit in the middle). -/
def bubble_pass : List ℕ → List ℕ
  | [] => []
  | a :: rest => bubble_aux a rest

/-- The loop populating `subbundles`: consecutive `np.arange(imin, imin+nsub)`
blocks, starting at `imin`. -/
def subbundles_of_sizes : List ℕ → ℕ → List (List ℕ)
  | [], _ => []
  | s :: rest, imin => List.range' imin s :: subbundles_of_sizes rest (imin + s)

/-- The loop populating `extract_subbundles`: pad one extra index on the low
side unless the group starts at 0, and one on the high side unless it ends at
`bundlesize - 1`. -/
def extract_of (bundlesize : ℕ) (ii : List ℕ) : List ℕ :=
  match ii with
  | [] => []
  | a :: _ =>
      (if 0 < a then [a - 1] else []) ++ ii ++
        (if (ii.getLast?).getD 0 < bundlesize - 1 then [(ii.getLast?).getD 0 + 1] else [])

/-- `split_bundle(bundlesize, n)`.  Returns `none` when the source raises:
`n > bundlesize` raises `ValueError` explicitly, and `np.array_split` raises
for `n = 0` sections. -/
def split_bundle (bundlesize n : ℕ) : Option (List (List ℕ) × List (List ℕ)) :=
  if n = 0 ∨ bundlesize < n then none
  else
    some (subbundles_of_sizes (bubble_pass (array_split_sizes bundlesize n)) 0,
          (subbundles_of_sizes (bubble_pass (array_split_sizes bundlesize n)) 0).map
            (extract_of bundlesize))

theorem bubble_aux_perm (a : ℕ) : ∀ l : List ℕ, List.Perm (bubble_aux a l) (a :: l) := by
  intro l
  induction l generalizing a with
  | nil => simp [bubble_aux]
  | cons b rest ih =>
    simp only [bubble_aux]
    by_cases hba : b < a
    · rw [if_pos hba]
      exact ((ih a).cons b).trans (List.Perm.swap a b rest)
    · rw [if_neg hba]
      exact (ih b).cons a

theorem bubble_pass_perm : ∀ l : List ℕ, List.Perm (bubble_pass l) l := by
  intro l
  match l with
  | [] => simp [bubble_pass]
  | a :: rest => exact bubble_aux_perm a rest

theorem array_split_sizes_sum (bundlesize n : ℕ) (hn : 0 < n) :
    (array_split_sizes bundlesize n).sum = bundlesize := by
  have key : ∀ m r q : ℕ,
      ((List.range m).map (fun i => if i < r then q + 1 else q)).sum = m * q + min r m := by
    intro m r q
    induction m with
    | zero => simp
    | succ k ih =>
      rw [List.range_succ, List.map_append, List.sum_append]
      simp only [List.map_cons, List.map_nil, List.sum_cons, List.sum_nil]
      have hs : (k + 1) * q = k * q + q := by ring
      by_cases hk : k < r
      · rw [if_pos hk, ih, hs]; omega
      · rw [if_neg hk, ih, hs]; omega
  rw [array_split_sizes, key]
  have h1 : bundlesize % n < n := Nat.mod_lt _ hn
  have h2 : n * (bundlesize / n) + bundlesize % n = bundlesize := Nat.div_add_mod _ _
  omega

theorem array_split_sizes_mem (bundlesize n s : ℕ)
    (hs : s ∈ array_split_sizes bundlesize n) :
    s = bundlesize / n ∨ s = bundlesize / n + 1 := by
  rw [array_split_sizes, List.mem_map] at hs
  obtain ⟨i, _, hi⟩ := hs
  by_cases h : i < bundlesize % n
  · right; rw [← hi, if_pos h]
  · left; rw [← hi, if_neg h]

theorem subbundles_of_sizes_join (sizes : List ℕ) :
    ∀ imin : ℕ, (subbundles_of_sizes sizes imin).flatten = List.range' imin sizes.sum := by
  induction sizes with
  | nil => intro imin; simp [subbundles_of_sizes]
  | cons s rest ih =>
    intro imin
    simp only [subbundles_of_sizes, List.flatten_cons, List.sum_cons]
    rw [ih (imin + s), List.range'_append_1, Nat.add_comm rest.sum s]

theorem subbundles_of_sizes_lengths (sizes : List ℕ) :
    ∀ imin : ℕ, (subbundles_of_sizes sizes imin).map List.length = sizes := by
  induction sizes with
  | nil => intro imin; rfl
  | cons s rest ih =>
    intro imin
    simp only [subbundles_of_sizes, List.map_cons, List.length_range']
    rw [ih]


theorem split_bundle_group_shape (bundlesize n : ℕ) (subs exts : List (List ℕ))
    (h : split_bundle bundlesize n = some (subs, exts)) :
    n ≠ 0 ∧ n ≤ bundlesize ∧
      subs = subbundles_of_sizes (bubble_pass (array_split_sizes bundlesize n)) 0 ∧
      exts = subs.map (extract_of bundlesize) := by
  rw [split_bundle] at h
  by_cases hc : n = 0 ∨ bundlesize < n
  · rw [if_pos hc] at h; cases h
  · rw [if_neg hc] at h
    push_neg at hc
    obtain ⟨h1, h2⟩ := Prod.mk.injEq .. ▸ (Option.some.injEq .. ▸ h)
    exact ⟨hc.1, hc.2, h1.symm, by rw [h2.symm, h1]⟩

theorem split_bundle_flatten (bundlesize n : ℕ) (subs exts : List (List ℕ))
    (h : split_bundle bundlesize n = some (subs, exts)) :
    subs.flatten = List.range bundlesize := by
  obtain ⟨hn, hnb, hsubs, _⟩ := split_bundle_group_shape bundlesize n subs exts h
  rw [hsubs, subbundles_of_sizes_join,
    (bubble_pass_perm (array_split_sizes bundlesize n)).sum_eq,
    array_split_sizes_sum bundlesize n (Nat.pos_of_ne_zero hn), List.range_eq_range']

theorem split_bundle_lengths (bundlesize n : ℕ) (subs exts : List (List ℕ))
    (h : split_bundle bundlesize n = some (subs, exts)) :
    ∀ g ∈ subs, g ≠ [] ∧ (g.length = bundlesize / n ∨ g.length = bundlesize / n + 1) := by
  obtain ⟨hn, hnb, hsubs, _⟩ := split_bundle_group_shape bundlesize n subs exts h
  intro g hg
  have hlen : g.length ∈ bubble_pass (array_split_sizes bundlesize n) := by
    rw [← subbundles_of_sizes_lengths (bubble_pass (array_split_sizes bundlesize n)) 0, ← hsubs]
    exact List.mem_map_of_mem _ hg
  have hmem : g.length ∈ array_split_sizes bundlesize n :=
    (bubble_pass_perm (array_split_sizes bundlesize n)).mem_iff.mp hlen
  have hq : 1 ≤ bundlesize / n :=
    (Nat.one_le_div_iff (Nat.pos_of_ne_zero hn)).mpr hnb
  have := array_split_sizes_mem bundlesize n g.length hmem
  refine ⟨?_, by omega⟩
  intro hnil
  rw [hnil] at this
  simp at this
  omega

/-- C3: `split_bundle(10, 3)` returns subgroups `[[0,1,2],[3,4,5],[6,7,8,9]]`
and extract-ranges `[[0,1,2,3],[2,3,4,5,6],[5,6,7,8,9]]`; and whenever
`split_bundle(bundlesize, n)` returns (in particular for every
`1 ≤ n ≤ bundlesize` it does return), the subgroups are disjoint with union
exactly `[0, bundlesize)` (their concatenation is literally
`List.range bundlesize`), their sizes differ by at most 1, and each
extract-range equals its subgroup extended by one extra index on the low side
unless the subgroup starts at 0 and one on the high side unless it ends at
`bundlesize - 1`. -/
theorem claim_C3_split_bundle :
    (split_bundle 10 3 =
      some ([[0, 1, 2], [3, 4, 5], [6, 7, 8, 9]],
            [[0, 1, 2, 3], [2, 3, 4, 5, 6], [5, 6, 7, 8, 9]])) ∧
    (∀ bundlesize n : ℕ, 1 ≤ n → n ≤ bundlesize →
      ∃ subs exts, split_bundle bundlesize n = some (subs, exts)) ∧
    (∀ bundlesize n : ℕ, ∀ subs exts : List (List ℕ),
      split_bundle bundlesize n = some (subs, exts) →
      subs.flatten = List.range bundlesize ∧
      (∀ g1 ∈ subs, ∀ g2 ∈ subs, g1.length ≤ g2.length + 1) ∧
      exts = subs.map (extract_of bundlesize) ∧
      (∀ g ∈ subs, ∃ a z : ℕ, g.head? = some a ∧ g.getLast? = some z ∧
        extract_of bundlesize g =
          (if a = 0 then [] else [a - 1]) ++ g ++
            (if z = bundlesize - 1 then [] else [z + 1]))) := by
  refine ⟨by decide, ?_, ?_⟩
  · intro bundlesize n h1 h2
    exact ⟨subbundles_of_sizes (bubble_pass (array_split_sizes bundlesize n)) 0,
      (subbundles_of_sizes (bubble_pass (array_split_sizes bundlesize n)) 0).map
        (extract_of bundlesize),
      by rw [split_bundle, if_neg (by omega)]⟩
  · intro bundlesize n subs exts h
    obtain ⟨hn, hnb, hsubs, hexts⟩ := split_bundle_group_shape bundlesize n subs exts h
    have hflat := split_bundle_flatten bundlesize n subs exts h
    have hlens := split_bundle_lengths bundlesize n subs exts h
    refine ⟨hflat, ?_, hexts, ?_⟩
    · intro g1 hg1 g2 hg2
      have h1 := (hlens g1 hg1).2
      have h2 := (hlens g2 hg2).2
      omega
    · intro g hg
      obtain ⟨hne, _⟩ := hlens g hg
      match g, hne with
      | a :: t, _ =>
        obtain ⟨z, hz⟩ : ∃ z, (a :: t).getLast? = some z :=
          ⟨(a :: t).getLast (by simp), List.getLast?_eq_getLast _ (by simp)⟩
        refine ⟨a, z, rfl, hz, ?_⟩
        have hzmem : z ∈ (a :: t) := List.mem_of_mem_getLast? (hz ▸ rfl)
        have hzlt : z < bundlesize := by
          have : z ∈ subs.flatten := List.mem_flatten_of_mem hg hzmem
          rw [hflat] at this
          exact List.mem_range.mp this
        rw [extract_of]
        simp only [hz, Option.getD_some]
        have e1 : (if 0 < a then [a - 1] else []) = (if a = 0 then [] else [a - 1]) := by
          by_cases ha : a = 0
          · simp [ha]
          · rw [if_pos (Nat.pos_of_ne_zero ha), if_neg ha]
        have e2 : (if z < bundlesize - 1 then [z + 1] else []) =
            (if z = bundlesize - 1 then [] else [z + 1]) := by
          by_cases hzb : z = bundlesize - 1
          · rw [if_neg (by omega), if_pos hzb]
          · rw [if_pos (by omega), if_neg hzb]
        rw [e1, e2]

/-! ## Wavelength-grid validation in `ex2d` (both variants)

`dw = wavelengths[1] - wavelengths[0]`; the extraction raises
`ValueError('ex2d currently only supports linear wavelength grids')` unless
`np.allclose(dw, np.diff(wavelengths))`.  This happens before any output
array is allocated or any patch is extracted. -/

/-- `np.diff(wavelengths)`: first differences. -/
def npdiff (ws : List ℚ) : List ℚ :=
  List.zipWith (fun a b => b - a) ws ws.tail

/-- The elementwise test of `np.allclose(a, l)` for a scalar first argument,
with numpy defaults `rtol = 1e-5`, `atol = 1e-8`:
`|a - b| ≤ atol + rtol * |b|` for every entry `b`. -/
def npallclose1 (a : ℚ) (l : List ℚ) : Bool :=
  l.all (fun b => decide (|a - b| ≤ 1 / 100000000 + (1 / 100000) * |b|))

/-- The grid check at the top of `ex2d`: `some true` when the check passes
(no error), `some false` when the `ValueError` is raised, `none` when the
grid has fewer than two entries (`wavelengths[1]` itself raises before the
check). -/
def ex2d_grid_ok (ws : List ℚ) : Option Bool :=
  match ws with
  | w0 :: w1 :: _ => some (npallclose1 (w1 - w0) (npdiff ws))
  | _ => none

/-- A grid with a uniform step across the whole array: every first
difference equals the first one. -/
def uniformGrid (ws : List ℚ) : Bool :=
  match ws with
  | w0 :: w1 :: _ => (npdiff ws).all (fun d => decide (d = w1 - w0))
  | _ => true

/-- C6 counterexample: the grid `[0, 1, 2 + 10⁻⁶]` does not have a uniform
step, yet `ex2d` raises no error on it: the `np.allclose` tolerance
(`atol 1e-8 + rtol 1e-5`) accepts the `10⁻⁶` deviation, so "raises if and
only if the grid is not uniform" is false. -/
theorem claim_C6_counterexample :
    uniformGrid [0, 1, 2 + 1 / 1000000] = false ∧
    ex2d_grid_ok [0, 1, 2 + 1 / 1000000] = some true := by
  constructor
  · simp only [uniformGrid, npdiff]
    norm_num
  · simp only [ex2d_grid_ok, npallclose1, npdiff]
    norm_num [abs_le, abs_of_nonneg]

/-- C6 amended: `ex2d` raises the input error, before any extraction
compute, if and only if some first difference of the wavelength grid
deviates from the leading step `wavelengths[1] - wavelengths[0]` by more
than the `np.allclose` tolerance `1e-8 + 1e-5·|step|`; on an exactly
uniform grid (at least two entries) no error is raised. -/
theorem claim_C6_grid_check (w0 w1 : ℚ) (rest : List ℚ) :
    (ex2d_grid_ok (w0 :: w1 :: rest) = some false ↔
      ∃ d ∈ npdiff (w0 :: w1 :: rest),
        ¬(|(w1 - w0) - d| ≤ 1 / 100000000 + (1 / 100000) * |d|)) ∧
    (uniformGrid (w0 :: w1 :: rest) = true →
      ex2d_grid_ok (w0 :: w1 :: rest) = some true) := by
  constructor
  · simp only [ex2d_grid_ok, npallclose1, Option.some.injEq]
    rw [← Bool.not_eq_true, List.all_eq_true]
    simp only [decide_eq_true_eq]
    constructor
    · intro h
      by_contra hne
      push_neg at hne
      exact h (fun b hb => hne b hb)
    · intro ⟨d, hd, hlt⟩ h
      exact hlt (h d hd)
  · intro h
    simp only [uniformGrid, List.all_eq_true, decide_eq_true_eq] at h
    simp only [ex2d_grid_ok, npallclose1, Option.some.injEq, List.all_eq_true,
      decide_eq_true_eq]
    intro b hb
    rw [h b hb]
    simp
    positivity

/-- C6 witness at a concrete uniform grid. -/
theorem claim_C6_grid_check_witness :
    (ex2d_grid_ok [0, 1, 2] = some false ↔
      ∃ d ∈ npdiff [0, 1, 2],
        ¬(|(1 - 0 : ℚ) - d| ≤ 1 / 100000000 + (1 / 100000) * |d|)) ∧
    (uniformGrid [0, 1, 2] = true → ex2d_grid_ok [0, 1, 2] = some true) :=
  claim_C6_grid_check 0 1 [2]

/-! ## The hard-coded `keep` mask in `ex2d` (both variants)

`keep = np.ones(25, dtype=bool)` is applied as a boolean index to
`iispec = np.arange(speclo - specmin, spechi - specmin)`, an array of length
`nspec`; numpy raises `IndexError` when a boolean mask's length differs from
the indexed axis length. -/

/-- Numpy boolean-mask indexing `arr[mask]`: `none` models the `IndexError`
raised when the mask length does not match the array length. -/
def boolMaskIndex {α : Type} (arr : List α) (mask : List Bool) : Option (List α) :=
  if arr.length = mask.length then
    some (((arr.zip mask).filter (fun p => p.2)).map (fun p => p.1))
  else none

/-- `keep = np.ones(25, dtype=bool)`. -/
def ex2d_keep : List Bool := List.replicate 25 true

/-- `iispec = np.arange(speclo - specmin, spechi - specmin)`: with
`speclo = specmin` and `spechi = specmin + nspec` this is `arange(0, nspec)`. -/
def ex2d_iispec (nspec : ℕ) : List ℕ := List.range nspec

/-- C10: indexing `iispec` (length `nspec`) with the hard-coded length-25
boolean `keep` mask fails with an indexing error exactly when `nspec ≠ 25`,
so the first patch-stitching assignment — and with it the whole `ex2d`
call — can only complete when `nspec = 25`; for `nspec = 25` the all-true
mask selects every spectrum. -/
theorem claim_C10_keep_mask :
    (∀ nspec : ℕ, boolMaskIndex (ex2d_iispec nspec) ex2d_keep = none ↔ nspec ≠ 25) ∧
    boolMaskIndex (ex2d_iispec 25) ex2d_keep = some (List.range 25) := by
  constructor
  · intro nspec
    by_cases h : nspec = 25
    · subst h
      constructor
      · intro hc
        rw [boolMaskIndex, if_pos (by simp [ex2d_iispec, ex2d_keep])] at hc
        cases hc
      · intro hc; exact absurd rfl hc
    · constructor
      · intro _; exact h
      · intro _
        rw [boolMaskIndex, if_neg (by simp [ex2d_iispec, ex2d_keep, h])]
  · decide

/-! ## Patch tiling of the wavelength range in `ex2d` (both variants)

The loop `for iwave in range(0, len(wavelengths), wavesize)` writes, on each
iteration, the slice `iwave : iwave + wavesize + 1` of the global `flux` and
`ivar` arrays (the written block is `specflux[keep, nlo:-nhi]`, which has
width `wavesize + 1` for interior patches, `nwave - iwave` for the last). -/

/-- The iteration heads of `range(0, nwave, wavesize)` for `wavesize > 0`:
the multiples of `wavesize` below `nwave`. -/
def wavePatchStarts (nwave wavesize : ℕ) : List ℕ :=
  (List.range nwave).filter (fun iw => decide (iw % wavesize = 0))

/-- The set of global column indices written by the patch iteration starting
at `iwave`: the numpy slice `iwave : iwave + wavesize + 1` of an `nwave`-wide
array. -/
def coreWrite (nwave wavesize iwave : ℕ) : Finset ℕ :=
  Finset.Ico iwave (min (iwave + wavesize + 1) nwave)

theorem mem_wavePatchStarts (nwave wavesize iw : ℕ) :
    iw ∈ wavePatchStarts nwave wavesize ↔ iw < nwave ∧ iw % wavesize = 0 := by
  simp [wavePatchStarts, List.mem_filter, List.mem_range]

theorem mem_coreWrite (nwave wavesize iwave j : ℕ) :
    j ∈ coreWrite nwave wavesize iwave ↔
      iwave ≤ j ∧ j < iwave + wavesize + 1 ∧ j < nwave := by
  simp [coreWrite, Finset.mem_Ico, Nat.lt_min, and_assoc]

/-- C2 counterexample: with `nwave = 3`, `wavesize = 1`, the global entry at
index 1 is written both by the patch iteration starting at 0 and by the one
starting at 1 (each iteration writes `wavesize + 1` columns), refuting "no
entry of the global flux or ivar array is written by more than one patch
iteration". -/
theorem claim_C2_counterexample :
    0 ∈ wavePatchStarts 3 1 ∧ 1 ∈ wavePatchStarts 3 1 ∧ (0 : ℕ) ≠ 1 ∧
    1 ∈ coreWrite 3 1 0 ∧ 1 ∈ coreWrite 3 1 1 := by
  refine ⟨?_, ?_, by decide, ?_, ?_⟩ <;> decide

/-- C2 amended: the written column ranges cover the requested wavelength
range with no gaps, but adjacent patches overlap in exactly one entry: an
entry is written by two distinct patch iterations precisely when its index
is a positive multiple of `wavesize` (it is then the last written column of
one patch and the first of the next), and never by more than two. -/
theorem claim_C2_tiling (nwave wavesize : ℕ) (hw : 0 < wavesize) :
    (∀ j < nwave, ∃ iw ∈ wavePatchStarts nwave wavesize, j ∈ coreWrite nwave wavesize iw) ∧
    (∀ iw1 ∈ wavePatchStarts nwave wavesize, ∀ iw2 ∈ wavePatchStarts nwave wavesize,
      iw1 < iw2 → ∀ j, j ∈ coreWrite nwave wavesize iw1 → j ∈ coreWrite nwave wavesize iw2 →
        iw2 = iw1 + wavesize ∧ j = iw2) ∧
    (∀ j < nwave, 0 < j → wavesize ∣ j →
      j - wavesize ∈ wavePatchStarts nwave wavesize ∧
      j ∈ wavePatchStarts nwave wavesize ∧
      j ∈ coreWrite nwave wavesize (j - wavesize) ∧
      j ∈ coreWrite nwave wavesize j) := by
  refine ⟨?_, ?_, ?_⟩
  · intro j hj
    refine ⟨wavesize * (j / wavesize), ?_, ?_⟩
    · rw [mem_wavePatchStarts]
      have h1 := Nat.div_add_mod j wavesize
      have h2 := Nat.mod_lt j hw
      exact ⟨by omega, Nat.mul_mod_right _ _⟩
    · rw [mem_coreWrite]
      have h1 := Nat.div_add_mod j wavesize
      have h2 := Nat.mod_lt j hw
      omega
  · intro iw1 h1 iw2 h2 hlt j hj1 hj2
    rw [mem_wavePatchStarts] at h1 h2
    rw [mem_coreWrite] at hj1 hj2
    have hd1 : wavesize ∣ iw1 := Nat.dvd_of_mod_eq_zero h1.2
    have hd2 : wavesize ∣ iw2 := Nat.dvd_of_mod_eq_zero h2.2
    have hd : wavesize ∣ iw2 - iw1 := Nat.dvd_sub' hd2 hd1
    have hge : wavesize ≤ iw2 - iw1 := Nat.le_of_dvd (by omega) hd
    omega
  · intro j hj hpos hdvd
    have hwj : wavesize ≤ j := Nat.le_of_dvd hpos hdvd
    have hd : wavesize ∣ j - wavesize := Nat.dvd_sub' hdvd dvd_rfl
    obtain ⟨c, hc⟩ := hd
    obtain ⟨b, hb⟩ := hdvd
    refine ⟨?_, ?_, ?_, ?_⟩
    · rw [mem_wavePatchStarts, hc]
      exact ⟨by omega, Nat.mul_mod_right _ _⟩
    · rw [mem_wavePatchStarts, hb]
      exact ⟨by omega, Nat.mul_mod_right _ _⟩
    · rw [mem_coreWrite]; omega
    · rw [mem_coreWrite]; omega

/-- C2 witness: the amended tiling facts at `nwave = 5`, `wavesize = 2`. -/
theorem claim_C2_tiling_witness :
    (∀ j < 5, ∃ iw ∈ wavePatchStarts 5 2, j ∈ coreWrite 5 2 iw) ∧
    (∀ iw1 ∈ wavePatchStarts 5 2, ∀ iw2 ∈ wavePatchStarts 5 2,
      iw1 < iw2 → ∀ j, j ∈ coreWrite 5 2 iw1 → j ∈ coreWrite 5 2 iw2 →
        iw2 = iw1 + 2 ∧ j = iw2) ∧
    (∀ j < 5, 0 < j → 2 ∣ j →
      j - 2 ∈ wavePatchStarts 5 2 ∧ j ∈ wavePatchStarts 5 2 ∧
      j ∈ coreWrite 5 2 (j - 2) ∧ j ∈ coreWrite 5 2 j) :=
  claim_C2_tiling 5 2 (by decide)

/-! ## `eigen_compose` and `resolution_from_icov` (identical in both variants)

`np.sqrt` and `scipy.linalg.eigh` are opaque numerical kernels; they enter
the embedding as explicit function parameters `sqrtf` and `eigh`.  Theorems
that rely on them behaving like the mathematical square root or like an
orthonormal eigendecomposition state those facts as hypotheses (or verify
them on the concrete inputs of a counterexample). -/

/-- The type of the `scipy.linalg.eigh` oracle: a dimension and a (dense,
symmetric) matrix give an eigenvalue vector and an eigenvector matrix
(column `k` of `v` belongs to eigenvalue `w k`). -/
def EighFn : Type := ℕ → (ℕ → ℕ → ℚ) → ((ℕ → ℚ) × (ℕ → ℕ → ℚ))

/-- The `wscaled` array of `eigen_compose`: eigenvalue regularization with
`threshold = 10 * sys.float_info.epsilon`, `maxval = np.max(w)`, and
`minval = maxval * threshold` (or `np.sqrt(maxval) * threshold` on the
square-root branches); an eigenvalue (or its square root, on the
`invert ∧ sqr` branch) not above `minval` is replaced by `minval`
(reciprocated when inversion is requested). -/
def eigen_scaled (sqrtf : ℚ → ℚ) (n : ℕ) (w : ℕ → ℚ) (invert sqr : Bool) (k : ℕ) : ℚ :=
  if invert then
    if sqr then
      (if sqrtf (npmax n w) * (10 * machineEps) < sqrtf (w k) then 1 / sqrtf (w k)
       else 1 / (sqrtf (npmax n w) * (10 * machineEps)))
    else
      (if npmax n w * (10 * machineEps) < w k then 1 / w k
       else 1 / (npmax n w * (10 * machineEps)))
  else
    if sqr then
      (if sqrtf (npmax n w) * (10 * machineEps) < w k then sqrtf (w k)
       else sqrtf (npmax n w) * (10 * machineEps))
    else
      (if npmax n w * (10 * machineEps) < w k then w k
       else npmax n w * (10 * machineEps))

/-- `eigen_compose(w, v, invert, sqr) = v.dot(spdiags(wscaled).dot(v.T))`:
entry `(i, j)` is `∑ₖ v[i,k] · wscaled[k] · v[j,k]`. -/
def eigen_compose (sqrtf : ℚ → ℚ) (n : ℕ) (w : ℕ → ℚ) (v : ℕ → ℕ → ℚ)
    (invert sqr : Bool) : ℕ → ℕ → ℚ :=
  fun i j => ∑ k in Finset.range n, v i k * eigen_scaled sqrtf n w invert sqr k * v j k

/-- `icov = 0.5 * (icov + icov.T)`: the symmetrization at the top of
`resolution_from_icov`. -/
def icovSym (icov : ℕ → ℕ → ℚ) : ℕ → ℕ → ℚ :=
  fun i j => (1 / 2) * (icov i j + icov j i)

/-- The tail of `resolution_from_icov`: from the square-root matrix build
`norm_vector = sqrt_icov.sum(axis=1)`, the resolution matrix
`R = outer(norm_vector⁻¹, ones) * sqrt_icov`, and
`ivar = norm_vector²` (Bolton & Schlegel 2010 eq. 13).  The elementwise
reciprocal of a zero entry is modelled by `ℚ`'s `0⁻¹ = 0` (numpy produces
`inf` there; either way the affected row of `R` does not sum to 1, which is
what the theorems below examine). -/
def mkRivar (n : ℕ) (sqrt_icov : ℕ → ℕ → ℚ) : ((ℕ → ℕ → ℚ) × (ℕ → ℚ)) :=
  (fun i j => (∑ m in Finset.range n, sqrt_icov i m)⁻¹ * sqrt_icov i j,
   fun i => (∑ m in Finset.range n, sqrt_icov i m) ^ 2)

/-- The square sub-block of `M` of size `b` at diagonal offset `offset`
(`M[offset:offset+b, offset:offset+b]`). -/
def subblock (M : ℕ → ℕ → ℚ) (offset : ℕ) : ℕ → ℕ → ℚ :=
  fun i j => M (offset + i) (offset + j)

/-- Writing a `b × b` block `B` into `S` at diagonal offset `offset`. -/
def writeBlock (S B : ℕ → ℕ → ℚ) (offset b : ℕ) : ℕ → ℕ → ℚ :=
  fun i j =>
    if offset ≤ i ∧ i < offset + b ∧ offset ≤ j ∧ j < offset + b then
      B (i - offset) (j - offset)
    else S i j

/-- The per-spectrum block loop of the `decorr` path: for every block size
`b`, eigendecompose the corresponding diagonal block of `inverse` and write
`eigen_compose(bw, bv, invert=True, sqr=True)` into `sqrt_icov`, advancing
`offset` by `b`. -/
def decorrBlocks (sqrtf : ℚ → ℚ) (eigh : EighFn) (inverse : ℕ → ℕ → ℚ) :
    List ℕ → ℕ → (ℕ → ℕ → ℚ) → (ℕ → ℕ → ℚ)
  | [], _, S => S
  | b :: rest, offset, S =>
      decorrBlocks sqrtf eigh inverse rest (offset + b)
        (writeBlock S
          (eigen_compose sqrtf b (eigh b (subblock inverse offset)).1
            (eigh b (subblock inverse offset)).2 true true) offset b)

/-- `resolution_from_icov(icov, decorr)`.  `Except.error` models the
`RuntimeError` raised when the `decorr` block sizes do not sum to the matrix
dimension; everything after that check is a total computation. -/
def resolution_from_icov (sqrtf : ℚ → ℚ) (eigh : EighFn) (n : ℕ)
    (icov : ℕ → ℕ → ℚ) (decorr : Option (List ℕ)) :
    Except String ((ℕ → ℕ → ℚ) × (ℕ → ℚ)) :=
  match decorr with
  | some blocks =>
      if blocks.sum ≠ n then
        Except.error "The list of spectral block sizes must sum to the matrix size"
      else
        Except.ok (mkRivar n (decorrBlocks sqrtf eigh
          (eigen_compose sqrtf n (eigh n (icovSym icov)).1 (eigh n (icovSym icov)).2
            true false)
          blocks 0 (fun _ _ => 0)))
  | none =>
      Except.ok (mkRivar n (eigen_compose sqrtf n (eigh n (icovSym icov)).1
        (eigh n (icovSym icov)).2 false true))

/-- The square-root matrix built on the `decorr = None` path:
`eigen_compose(w, v, sqr=True)` with `(w, v) = eigh(0.5*(icov+icov.T))`. -/
def sqrtIcovOf (sqrtf : ℚ → ℚ) (eigh : EighFn) (n : ℕ) (icov : ℕ → ℕ → ℚ) :
    ℕ → ℕ → ℚ :=
  eigen_compose sqrtf n (eigh n (icovSym icov)).1 (eigh n (icovSym icov)).2 false true

theorem resolution_from_icov_none (sqrtf : ℚ → ℚ) (eigh : EighFn) (n : ℕ)
    (icov : ℕ → ℕ → ℚ) :
    resolution_from_icov sqrtf eigh n icov none =
      Except.ok (mkRivar n (sqrtIcovOf sqrtf eigh n icov)) := rfl

/-- C7: `resolution_from_icov` called with a `decorr` list raises the input
error if and only if the block sizes do not sum to the matrix dimension;
when they do sum correctly it performs the block-by-block decorrelation
(invert the full matrix, then eigendecompose and square-root each diagonal
block) and returns without raising. -/
theorem claim_C7_decorr_check (sqrtf : ℚ → ℚ) (eigh : EighFn) (n : ℕ)
    (icov : ℕ → ℕ → ℚ) (blocks : List ℕ) :
    ((∃ e, resolution_from_icov sqrtf eigh n icov (some blocks) = Except.error e) ↔
      blocks.sum ≠ n) ∧
    (blocks.sum = n →
      resolution_from_icov sqrtf eigh n icov (some blocks) =
        Except.ok (mkRivar n (decorrBlocks sqrtf eigh
          (eigen_compose sqrtf n (eigh n (icovSym icov)).1 (eigh n (icovSym icov)).2
            true false)
          blocks 0 (fun _ _ => 0)))) := by
  by_cases h : blocks.sum = n
  · constructor
    · constructor
      · intro ⟨e, he⟩
        rw [resolution_from_icov, if_neg (by simpa using h)] at he
        cases he
      · intro hc; exact absurd h hc
    · intro _
      rw [resolution_from_icov, if_neg (by simpa using h)]
  · constructor
    · constructor
      · intro _; exact h
      · intro _
        refine ⟨"The list of spectral block sizes must sum to the matrix size", ?_⟩
        rw [resolution_from_icov, if_pos (by simpa using h)]
    · intro hc; exact absurd hc h

/-- C4 amended: on the `decorr = None` path, for every inverse-covariance
matrix and every row whose normalization entry (the row sum of the
square-root matrix) is nonzero, the corresponding row of the returned
resolution matrix sums to exactly 1 — in particular within `1e-8`.  (The
unqualified claim over all valid symmetric positive matrices fails: see the
counterexample, where a normalization entry is exactly 0.) -/
theorem claim_C4_resolution_rowsum (sqrtf : ℚ → ℚ) (eigh : EighFn) (n : ℕ)
    (icov : ℕ → ℕ → ℚ) (R : ℕ → ℕ → ℚ) (ivar : ℕ → ℚ) (i : ℕ)
    (hres : resolution_from_icov sqrtf eigh n icov none = Except.ok (R, ivar))
    (hnz : (∑ m in Finset.range n, sqrtIcovOf sqrtf eigh n icov i m) ≠ 0) :
    |(∑ j in Finset.range n, R i j) - 1| ≤ 1 / 100000000 := by
  rw [resolution_from_icov_none] at hres
  have hR : R = (mkRivar n (sqrtIcovOf sqrtf eigh n icov)).1 :=
    congrArg Prod.fst (Except.ok.inj hres).symm
  subst hR
  have hsum : (∑ j in Finset.range n, (mkRivar n (sqrtIcovOf sqrtf eigh n icov)).1 i j) = 1 := by
    rw [mkRivar]
    simp only
    rw [← Finset.mul_sum]
    exact inv_mul_cancel₀ hnz
  rw [hsum]
  norm_num

/-- A concrete `np.sqrt` oracle holding the square roots used on the inputs
of the concrete instances below. -/
def demoSqrt : ℚ → ℚ :=
  fun x => if x = 1 then 1 else if x = 9 then 3 else if x = 784 then 28 else 0

/-- Eigenvalues of the C4 counterexample matrix. -/
def c4w : ℕ → ℚ := fun k => if k = 0 then 9 else if k = 1 then 784 else 0

/-- Orthonormal eigenvectors of the C4 counterexample matrix (column `k`
belongs to `c4w k`). -/
def c4v : ℕ → ℕ → ℚ := fun i k =>
  if k = 0 then (if i = 0 then 4 / 5 else if i = 1 then 3 / 5 else 0)
  else if k = 1 then (if i = 0 then -(3 / 5) else if i = 1 then 4 / 5 else 0)
  else 0

/-- The C4 counterexample inverse-covariance matrix: symmetric positive
definite, with square root `[[12, -12], [-12, 19]]` whose first row sums
to 0. -/
def c4icov : ℕ → ℕ → ℚ := fun i j =>
  if i = 0 ∧ j = 0 then 288
  else if (i = 0 ∧ j = 1) ∨ (i = 1 ∧ j = 0) then -372
  else if i = 1 ∧ j = 1 then 505 else 0

/-- The `scipy.linalg.eigh` oracle value on the C4 counterexample matrix. -/
def c4eigh : EighFn := fun _ _ => (c4w, c4v)

/-- An `eigh` oracle for the 1-dimensional concrete instances: the matrix
`[[1]]` has eigendecomposition `w = [1]`, `v = [[1]]`. -/
def demoEigh : EighFn := fun _ _ => ((fun _ => 1), (fun _ _ => 1))

theorem c4_sqrtIcov_eval :
    sqrtIcovOf demoSqrt c4eigh 2 c4icov 0 0 = 12 ∧
    sqrtIcovOf demoSqrt c4eigh 2 c4icov 0 1 = -12 := by
  have hmax : npmax 2 c4w = 784 := by
    have h1 : npmax 2 c4w = max (max (c4w 0) (c4w 0)) (c4w 1) := by
      simp [npmax, List.range_succ]
    have h2 : c4w 0 = 9 := by norm_num [c4w]
    have h3 : c4w 1 = 784 := by norm_num [c4w]
    rw [h1, h2, h3, max_self, max_eq_right (by norm_num : (9 : ℚ) ≤ 784)]
  constructor <;>
  · simp only [sqrtIcovOf, eigen_compose, eigen_scaled, c4eigh, Finset.sum_range_succ,
      Finset.sum_range_zero, hmax]
    norm_num [c4w, c4v, demoSqrt, machineEps]

/-- C4 counterexample: `c4icov = [[288, -372], [-372, 505]]` is a valid
real, symmetric, positive-definite inverse covariance (its exact orthonormal
eigendecomposition with positive eigenvalues 9 and 784 is exhibited, and the
square-root oracle is exact on every value used), yet the first row of the
resolution matrix returned by `resolution_from_icov` sums to 0, not to 1
within `1e-8`: the square-root matrix is `[[12, -12], [-12, 19]]`, whose
first-row normalization sum is exactly 0. -/
theorem claim_C4_counterexample :
    c4icov 0 1 = c4icov 1 0 ∧
    (c4icov 0 0 = ∑ k in Finset.range 2, c4v 0 k * c4w k * c4v 0 k) ∧
    (c4icov 0 1 = ∑ k in Finset.range 2, c4v 0 k * c4w k * c4v 1 k) ∧
    (c4icov 1 1 = ∑ k in Finset.range 2, c4v 1 k * c4w k * c4v 1 k) ∧
    (∑ m in Finset.range 2, c4v m 0 * c4v m 0) = 1 ∧
    (∑ m in Finset.range 2, c4v m 0 * c4v m 1) = 0 ∧
    (∑ m in Finset.range 2, c4v m 1 * c4v m 1) = 1 ∧
    0 < c4w 0 ∧ 0 < c4w 1 ∧
    demoSqrt 9 * demoSqrt 9 = 9 ∧ 0 < demoSqrt 9 ∧
    demoSqrt 784 * demoSqrt 784 = 784 ∧ 0 < demoSqrt 784 ∧
    resolution_from_icov demoSqrt c4eigh 2 c4icov none =
      Except.ok (mkRivar 2 (sqrtIcovOf demoSqrt c4eigh 2 c4icov)) ∧
    ¬ (|(∑ j in Finset.range 2,
          (mkRivar 2 (sqrtIcovOf demoSqrt c4eigh 2 c4icov)).1 0 j) - 1|
        ≤ 1 / 100000000) := by
  obtain ⟨h00, h01⟩ := c4_sqrtIcov_eval
  refine ⟨?_, ?_, ?_, ?_, ?_, ?_, ?_, ?_, ?_, ?_, ?_, ?_, ?_, rfl, ?_⟩
  · norm_num [c4icov]
  · norm_num [c4icov, c4v, c4w, Finset.sum_range_succ]
  · norm_num [c4icov, c4v, c4w, Finset.sum_range_succ]
  · norm_num [c4icov, c4v, c4w, Finset.sum_range_succ]
  · norm_num [c4v, Finset.sum_range_succ]
  · norm_num [c4v, Finset.sum_range_succ]
  · norm_num [c4v, Finset.sum_range_succ]
  · norm_num [c4w]
  · norm_num [c4w]
  · norm_num [demoSqrt]
  · norm_num [demoSqrt]
  · norm_num [demoSqrt]
  · norm_num [demoSqrt]
  · rw [mkRivar]
    simp only
    rw [Finset.sum_range_succ, Finset.sum_range_succ, Finset.sum_range_zero,
      h00, h01]
    norm_num

/-- C4 witness: the amended row-sum theorem applied to the 1-dimensional
inverse covariance `[[1]]` with its exact eigendecomposition, where the
normalization entry is 1 ≠ 0. -/
theorem claim_C4_resolution_rowsum_witness :
    |(∑ j in Finset.range 1,
        (mkRivar 1 (sqrtIcovOf demoSqrt demoEigh 1 (fun _ _ => 1))).1 0 j) - 1|
      ≤ 1 / 100000000 :=
  claim_C4_resolution_rowsum demoSqrt demoEigh 1 (fun _ _ => 1)
    (mkRivar 1 (sqrtIcovOf demoSqrt demoEigh 1 (fun _ _ => 1))).1
    (mkRivar 1 (sqrtIcovOf demoSqrt demoEigh 1 (fun _ _ => 1))).2
    0 rfl
    (by
      have hmax : npmax 1 (fun _ => (1 : ℚ)) = 1 := by
        simp [npmax, List.range_succ]
      simp only [sqrtIcovOf, eigen_compose, eigen_scaled, demoEigh,
        Finset.sum_range_succ, Finset.sum_range_zero, hmax]
      norm_num [demoSqrt, machineEps])

theorem ten_eps_pos : (0 : ℚ) < 10 * machineEps := by norm_num [machineEps]

/-- C8: for a symmetric positive matrix `M` with orthonormal
eigendecomposition `(w, v)` whose eigenvalues all lie above the
regularization thresholds of `eigen_compose` (`10·eps` times the maximum
eigenvalue, respectively times its square root on the square-root branch),
double inversion — `eigen_compose(w, v, invert=True)` followed by
`eigen_compose` of the result's eigendecomposition `(w⁻¹, v)` with
`invert=True` — returns `M` exactly, and the square-root
`eigen_compose(w, v, sqr=True)` composed with itself also returns `M`
exactly (in particular within any floating tolerance). -/
theorem claim_C8_eigen_compose_roundtrip (sqrtf : ℚ → ℚ) (n : ℕ)
    (w : ℕ → ℚ) (v M : ℕ → ℕ → ℚ)
    (hpos : ∀ i < n, 0 < w i)
    (hM : ∀ i < n, ∀ j < n, M i j = ∑ k in Finset.range n, v i k * w k * v j k)
    (horth : ∀ k < n, ∀ l < n,
      (∑ m in Finset.range n, v m k * v m l) = if k = l then 1 else 0)
    (hsq : ∀ i < n, sqrtf (w i) * sqrtf (w i) = w i)
    (hthr : ∀ i < n, npmax n w * (10 * machineEps) < w i)
    (hthr2 : ∀ i < n, sqrtf (npmax n w) * (10 * machineEps) < w i) :
    ∀ i < n, ∀ j < n,
      eigen_compose sqrtf n (eigen_scaled sqrtf n w true false) v true false i j = M i j ∧
      (∑ m in Finset.range n,
          eigen_compose sqrtf n w v false true i m *
            eigen_compose sqrtf n w v false true m j) = M i j := by
  intro i hi j hj
  by_cases hn : 0 < n
  case neg => omega
  -- the first-pass inverted eigenvalues
  have hw1 : ∀ k < n, eigen_scaled sqrtf n w true false k = 1 / w k := by
    intro k hk
    rw [eigen_scaled]
    simp only [if_true, if_false, Bool.false_eq_true, ite_false, ite_true]
    rw [if_pos (hthr k hk)]
  constructor
  · -- double inversion
    obtain ⟨j1, hj1n, hj1⟩ := npmax_mem n (eigen_scaled sqrtf n w true false) hn
    have hj1v : npmax n (eigen_scaled sqrtf n w true false) = 1 / w j1 := by
      rw [hj1, hw1 j1 hj1n]
    have hmin : ∀ k < n, w j1 ≤ w k := by
      intro k hk
      have h1 : eigen_scaled sqrtf n w true false k ≤
          npmax n (eigen_scaled sqrtf n w true false) :=
        npmax_le n _ k hk
      rw [hj1v, hw1 k hk] at h1
      have := hpos k hk
      have := hpos j1 hj1n
      rw [div_le_div_iff₀ (by positivity) (by positivity)] at h1
      linarith
    have hcond2 : ∀ k < n,
        npmax n (eigen_scaled sqrtf n w true false) * (10 * machineEps) <
          eigen_scaled sqrtf n w true false k := by
      intro k hk
      rw [hj1v, hw1 k hk]
      have hwk := hpos k hk
      have hwj1 := hpos j1 hj1n
      rw [div_mul_eq_mul_div, one_mul, div_lt_div_iff₀ hwj1 hwk]
      have h1 : w k ≤ npmax n w := npmax_le n w k hk
      have h2 : npmax n w * (10 * machineEps) < w j1 := hthr j1 hj1n
      nlinarith [ten_eps_pos]
    rw [eigen_compose, hM i hi j hj]
    apply Finset.sum_congr rfl
    intro k hk
    have hkn := Finset.mem_range.mp hk
    rw [eigen_scaled]
    simp only [if_true, if_false, Bool.false_eq_true, ite_false, ite_true]
    rw [if_pos (hcond2 k hkn), hw1 k hkn, one_div_one_div]
  · -- square root composed with itself
    have hs : ∀ k < n, eigen_scaled sqrtf n w false true k = sqrtf (w k) := by
      intro k hk
      rw [eigen_scaled]
      simp only [if_true, if_false, Bool.false_eq_true, ite_false, ite_true]
      rw [if_pos (hthr2 k hk)]
    simp only [eigen_compose]
    calc (∑ m in Finset.range n,
            (∑ k in Finset.range n, v i k * eigen_scaled sqrtf n w false true k * v m k) *
              (∑ l in Finset.range n, v m l * eigen_scaled sqrtf n w false true l * v j l))
        = ∑ m in Finset.range n, ∑ k in Finset.range n, ∑ l in Finset.range n,
            (v i k * eigen_scaled sqrtf n w false true k * v m k) *
              (v m l * eigen_scaled sqrtf n w false true l * v j l) := by
          apply Finset.sum_congr rfl
          intro m _
          rw [Finset.sum_mul_sum]
      _ = ∑ k in Finset.range n, ∑ l in Finset.range n, ∑ m in Finset.range n,
            (v i k * eigen_scaled sqrtf n w false true k * v m k) *
              (v m l * eigen_scaled sqrtf n w false true l * v j l) := by
          rw [Finset.sum_comm]
          apply Finset.sum_congr rfl
          intro k _
          rw [Finset.sum_comm]
      _ = ∑ k in Finset.range n, ∑ l in Finset.range n,
            (v i k * eigen_scaled sqrtf n w false true k *
              (eigen_scaled sqrtf n w false true l * v j l)) *
              (∑ m in Finset.range n, v m k * v m l) := by
          apply Finset.sum_congr rfl; intro k _
          apply Finset.sum_congr rfl; intro l _
          rw [Finset.mul_sum]
          apply Finset.sum_congr rfl; intro m _
          ring
      _ = ∑ k in Finset.range n, ∑ l in Finset.range n,
            ite (k = l)
              (v i k * eigen_scaled sqrtf n w false true k *
                (eigen_scaled sqrtf n w false true l * v j l)) 0 := by
          apply Finset.sum_congr rfl; intro k hk
          apply Finset.sum_congr rfl; intro l hl
          rw [horth k (Finset.mem_range.mp hk) l (Finset.mem_range.mp hl),
            mul_ite, mul_one, mul_zero]
      _ = ∑ k in Finset.range n,
            v i k * eigen_scaled sqrtf n w false true k *
              (eigen_scaled sqrtf n w false true k * v j k) := by
          apply Finset.sum_congr rfl; intro k hk
          rw [Finset.sum_ite_eq (Finset.range n) k
            (fun l => v i k * eigen_scaled sqrtf n w false true k *
              (eigen_scaled sqrtf n w false true l * v j l)), if_pos hk]
      _ = ∑ k in Finset.range n, v i k * w k * v j k := by
          apply Finset.sum_congr rfl; intro k hk
          have hkn := Finset.mem_range.mp hk
          rw [hs k hkn]
          have hr : v i k * sqrtf (w k) * (sqrtf (w k) * v j k) =
              (sqrtf (w k) * sqrtf (w k)) * (v i k * v j k) := by ring
          rw [hr, hsq k hkn]
          ring
      _ = M i j := (hM i hi j hj).symm

/-- C8 witness: the round trip at the 1-dimensional matrix `[[1]]` with
eigendecomposition `w = [1]`, `v = [[1]]`. -/
theorem claim_C8_eigen_compose_roundtrip_witness :
    eigen_compose demoSqrt 1 (eigen_scaled demoSqrt 1 (fun _ => 1) true false)
        (fun _ _ => 1) true false 0 0 = 1 ∧
    (∑ m in Finset.range 1,
        eigen_compose demoSqrt 1 (fun _ => 1) (fun _ _ => 1) false true 0 m *
          eigen_compose demoSqrt 1 (fun _ => 1) (fun _ _ => 1) false true m 0) = 1 :=
  claim_C8_eigen_compose_roundtrip demoSqrt 1 (fun _ => 1) (fun _ _ => 1) (fun _ _ => 1)
    (fun _ _ => one_pos)
    (fun i _ j _ => by simp)
    (fun k hk l hl => by
      have hk0 : k = 0 := by omega
      have hl0 : l = 0 := by omega
      subst hk0; subst hl0
      simp)
    (fun i _ => by norm_num [demoSqrt])
    (fun i _ => by
      have h : npmax 1 (fun _ => (1 : ℚ)) = 1 := by simp [npmax, List.range_succ]
      rw [h]
      norm_num [machineEps])
    (fun i _ => by
      have h : npmax 1 (fun _ => (1 : ℚ)) = 1 := by simp [npmax, List.range_succ]
      rw [h]
      norm_num [demoSqrt, machineEps])
    0 (by norm_num) 0 (by norm_num)

/-! ## `ex2d_patch`, direct-solve variant (`ex2d_patch_gpu_matrix.py`)

System assembly with regularization (lines 340–372) and the decorrelation
tail (lines 423–501). -/

/-- `fluxweight = W.dot(A).sum(axis=0)`: the column sums of `W·A`. -/
def fluxweight (npix : ℕ) (A : ℕ → ℕ → ℚ) (w : ℕ → ℚ) : ℕ → ℚ :=
  fun j => ∑ i in Finset.range npix, w i * A i j

/-- `minweight = 1.e-4 * np.max(fluxweight)`. -/
def minweight (npix nbins : ℕ) (A : ℕ → ℕ → ℚ) (w : ℕ → ℚ) : ℚ :=
  (1 / 10000) * npmax nbins (fluxweight npix A w)

/-- The diagonal of the regularization matrix `I`:
`Idiag = regularize * ones(nspec*nwave)` then
`Idiag[ibad] = minweight - fluxweight[ibad]` for the low-weight bins
`ibad = fluxweight < minweight`. -/
def ex2d_Idiag (npix nbins : ℕ) (A : ℕ → ℕ → ℚ) (w : ℕ → ℚ) (regularize : ℚ) : ℕ → ℚ :=
  fun j =>
    if fluxweight npix A w j < minweight npix nbins A w then
      minweight npix nbins A w - fluxweight npix A w j
    else regularize

/-- The (possibly augmented) system handed to the solver: extended pixel
count, design matrix, weights and pixel vector. -/
structure Ex2dSystem where
  npix : ℕ
  Ax : ℕ → ℕ → ℚ
  wx : ℕ → ℚ
  pix : ℕ → ℚ

/-- Lines 364–372: `if np.any(I.diagonal())` the system is augmented by
stacking the diagonal block `I` under `A` (`Ax = vstack((A, I))`), appending
`nspec*nwave` synthetic zero pixels with unit weight; otherwise the plain
`A`, `w`, `image` are used. -/
def ex2d_patch_system (npix nbins : ℕ) (A : ℕ → ℕ → ℚ) (w img : ℕ → ℚ)
    (regularize : ℚ) : Ex2dSystem :=
  if ∃ j < nbins, ex2d_Idiag npix nbins A w regularize j ≠ 0 then
    { npix := npix + nbins
      Ax := fun i j =>
        if i < npix then A i j
        else if i - npix = j then ex2d_Idiag npix nbins A w regularize j else 0
      wx := fun i => if i < npix then w i else 1
      pix := fun i => if i < npix then img i else 0 }
  else
    { npix := npix, Ax := A, wx := w, pix := img }

/-- `iCov = Ax.T.dot(Wx.dot(Ax))`. -/
def ex2d_iCov (s : Ex2dSystem) : ℕ → ℕ → ℚ :=
  fun a b => ∑ i in Finset.range s.npix, s.wx i * s.Ax i a * s.Ax i b

/-- `y = Ax.T.dot(Wx.dot(pix))`. -/
def ex2d_yvec (s : Ex2dSystem) : ℕ → ℚ :=
  fun a => ∑ i in Finset.range s.npix, s.wx i * s.Ax i a * s.pix i

/-- `f = cp.linalg.solve(iCov.todense(), y)`: the dense solver is an opaque
kernel, modelled as a function parameter applied to the assembled system. -/
def ex2d_xflux (solve : (ℕ → ℕ → ℚ) → (ℕ → ℚ) → (ℕ → ℚ)) (s : Ex2dSystem) : ℕ → ℚ :=
  solve (ex2d_iCov s) (ex2d_yvec s)

/-- C5: with `regularize = 0` and no flux bin's weight below
`1e-4 · max(fluxweight)`, the regularization diagonal is identically zero,
no identity block is stacked (the assembled system is exactly the plain one),
and the solver — whatever dense solver is plugged in — is applied to exactly
the unaugmented weighted normal equations `(AᵀWA) x = AᵀW·pix`. -/
theorem claim_C5_no_regularization (npix nbins : ℕ) (A : ℕ → ℕ → ℚ) (w img : ℕ → ℚ)
    (hweight : ∀ j < nbins,
      ¬(fluxweight npix A w j < minweight npix nbins A w)) :
    ex2d_patch_system npix nbins A w img 0 = ⟨npix, A, w, img⟩ ∧
    (∀ a b, ex2d_iCov (ex2d_patch_system npix nbins A w img 0) a b =
      ∑ i in Finset.range npix, w i * A i a * A i b) ∧
    (∀ a, ex2d_yvec (ex2d_patch_system npix nbins A w img 0) a =
      ∑ i in Finset.range npix, w i * A i a * img i) ∧
    (∀ solve : (ℕ → ℕ → ℚ) → (ℕ → ℚ) → (ℕ → ℚ),
      ex2d_xflux solve (ex2d_patch_system npix nbins A w img 0) =
        solve (fun a b => ∑ i in Finset.range npix, w i * A i a * A i b)
          (fun a => ∑ i in Finset.range npix, w i * A i a * img i)) := by
  have hIdiag : ∀ j < nbins, ex2d_Idiag npix nbins A w 0 j = 0 := by
    intro j hj
    rw [ex2d_Idiag, if_neg (hweight j hj)]
  have hno : ¬ ∃ j < nbins, ex2d_Idiag npix nbins A w 0 j ≠ 0 := by
    intro ⟨j, hj, hne⟩
    exact hne (hIdiag j hj)
  have hsys : ex2d_patch_system npix nbins A w img 0 = ⟨npix, A, w, img⟩ := by
    rw [ex2d_patch_system, if_neg hno]
  refine ⟨hsys, ?_, ?_, ?_⟩
  · intro a b; rw [hsys]; rfl
  · intro a; rw [hsys]; rfl
  · intro solve; rw [hsys]; rfl

/-- C5 witness: the unregularized path at a concrete 1-pixel, 1-bin system
with unit design matrix, weight and pixel (no bin is under-weighted). -/
theorem claim_C5_no_regularization_witness :
    ex2d_patch_system 1 1 (fun _ _ => 1) (fun _ => 1) (fun _ => 1) 0 =
      ⟨1, fun _ _ => 1, fun _ => 1, fun _ => 1⟩ ∧
    (∀ a b, ex2d_iCov (ex2d_patch_system 1 1 (fun _ _ => 1) (fun _ => 1) (fun _ => 1) 0) a b =
      ∑ i in Finset.range 1, (fun _ => (1 : ℚ)) i * (fun _ _ => (1 : ℚ)) i a *
        (fun _ _ => (1 : ℚ)) i b) ∧
    (∀ a, ex2d_yvec (ex2d_patch_system 1 1 (fun _ _ => 1) (fun _ => 1) (fun _ => 1) 0) a =
      ∑ i in Finset.range 1, (fun _ => (1 : ℚ)) i * (fun _ _ => (1 : ℚ)) i a *
        (fun _ => (1 : ℚ)) i) ∧
    (∀ solve : (ℕ → ℕ → ℚ) → (ℕ → ℚ) → (ℕ → ℚ),
      ex2d_xflux solve (ex2d_patch_system 1 1 (fun _ _ => 1) (fun _ => 1) (fun _ => 1) 0) =
        solve (fun a b => ∑ i in Finset.range 1, (fun _ => (1 : ℚ)) i *
            (fun _ _ => (1 : ℚ)) i a * (fun _ _ => (1 : ℚ)) i b)
          (fun a => ∑ i in Finset.range 1, (fun _ => (1 : ℚ)) i *
            (fun _ _ => (1 : ℚ)) i a * (fun _ => (1 : ℚ)) i)) :=
  claim_C5_no_regularization 1 1 (fun _ _ => 1) (fun _ => 1) (fun _ => 1)
    (fun j _ => by
      have hf : ∀ k : ℕ, fluxweight 1 (fun _ _ => 1) (fun _ => 1) k = 1 := by
        intro k; simp [fluxweight]
      have hm : minweight 1 1 (fun _ _ => 1) (fun _ => 1) = 1 / 10000 := by
        rw [minweight]
        have : npmax 1 (fluxweight 1 (fun _ _ => 1) (fun _ => 1)) = 1 := by
          simp [npmax, List.range_succ, hf]
        rw [this]
        norm_num
      rw [hf, hm]
      norm_num)

/-- `Q = v.dot(d.dot(v.T))` with `d = spdiags(cp.sqrt(u))` in the
decorrelation tail of the direct-solve `ex2d_patch` (B&S eq 10). -/
def ex2d_patch_matrix_Q (sqrtf : ℚ → ℚ) (n : ℕ) (u : ℕ → ℚ) (v : ℕ → ℕ → ℚ) :
    ℕ → ℕ → ℚ :=
  fun a b => ∑ k in Finset.range n, v a k * sqrtf (u k) * v b k

/-- `norm_vector = cp.sum(Q, axis=1)` (B&S eq 11). -/
def ex2d_patch_matrix_norm_vector (sqrtf : ℚ → ℚ) (n : ℕ) (u : ℕ → ℚ)
    (v : ℕ → ℕ → ℚ) : ℕ → ℚ :=
  fun a => ∑ b in Finset.range n, ex2d_patch_matrix_Q sqrtf n u v a b

/-- Line 501 of `ex2d_patch_gpu_matrix.py`:
`varfx_gpu = (norm_vector_gpu * 2).reshape((nspec, nwave))` — the returned
inverse variance is the normalization vector times 2 (not squared). -/
def ex2d_patch_matrix_varfx (sqrtf : ℚ → ℚ) (n : ℕ) (u : ℕ → ℚ)
    (v : ℕ → ℕ → ℚ) : ℕ → ℚ :=
  fun a => ex2d_patch_matrix_norm_vector sqrtf n u v a * 2

/-- C1, evaluated at the failing input: for the 1-bin patch with
eigendecomposition `u = [1]`, `v = [[1]]` (so `Q = [[1]]` and
`norm_vector = [1]`), the direct-solve `ex2d_patch` returns inverse variance
`norm_vector * 2 = 2`, not the claimed `norm_vector² = 1`; the
`resolution_from_icov` tail (`mkRivar`) does return `norm_vector²` as the
claim and the Bolton & Schlegel eq. 13 cited in the code's own comments
require. -/
theorem claim_C1_varfx_failing_input :
    ex2d_patch_matrix_varfx demoSqrt 1 (fun _ => 1) (fun _ _ => 1) 0 = 2 ∧
    (ex2d_patch_matrix_norm_vector demoSqrt 1 (fun _ => 1) (fun _ _ => 1) 0) ^ 2 = 1 ∧
    ex2d_patch_matrix_varfx demoSqrt 1 (fun _ => 1) (fun _ _ => 1) 0 ≠
      (ex2d_patch_matrix_norm_vector demoSqrt 1 (fun _ => 1) (fun _ _ => 1) 0) ^ 2 ∧
    (mkRivar 1 (ex2d_patch_matrix_Q demoSqrt 1 (fun _ => 1) (fun _ _ => 1))).2 0 =
      (ex2d_patch_matrix_norm_vector demoSqrt 1 (fun _ => 1) (fun _ _ => 1) 0) ^ 2 := by
  have hQ : ex2d_patch_matrix_Q demoSqrt 1 (fun _ => 1) (fun _ _ => 1) 0 0 = 1 := by
    simp [ex2d_patch_matrix_Q, demoSqrt]
  have hnv : ex2d_patch_matrix_norm_vector demoSqrt 1 (fun _ => 1) (fun _ _ => 1) 0 = 1 := by
    simp [ex2d_patch_matrix_norm_vector, hQ]
  refine ⟨?_, ?_, ?_, ?_⟩
  · rw [ex2d_patch_matrix_varfx, hnv]; norm_num
  · rw [hnv]; norm_num
  · rw [ex2d_patch_matrix_varfx, hnv]; norm_num
  · rw [mkRivar]
    simp only
    rw [ex2d_patch_matrix_norm_vector]

/-! ## `ex2d_patch`, iterative-solve variant (`ex2d_patch_gpu.py`, lines 230–340)

The full decorrelation pipeline: normal equations, `lsqr` solve,
eigendecomposition, resolution matrix, decorrelated flux and the
`diagonal(R·Cov·Rᵀ)` variance.  `regularize` is accepted as an argument and
echoed in the returned `options` dictionary but never read by the
computation. -/

/-- What the iterative-solve `ex2d_patch` returns: the dict entries `flux`,
`ivar`, `R`, `xflux`, `iCov`, and the `options` values `regularize` and
`ndecorr` (flux vectors are kept flattened; the final `reshape` is pure
index bookkeeping). -/
structure Ex2dPatchIterResult where
  flux : ℕ → ℚ
  ivar : ℕ → ℚ
  R : ℕ → ℕ → ℚ
  xflux : ℕ → ℚ
  iCov : ℕ → ℕ → ℚ
  optRegularize : ℚ
  optNdecorr : Bool

/-- The iterative-solve `ex2d_patch` pipeline: `iCov = AᵀWA`,
`y = AᵀW·pix`, `f = lsqr(iCov, y)`, `(u, v) = eigh(iCov)`,
`Q = v·diag(√u)·vᵀ`, `norm_vector = Q.sum(axis=1)`,
`R = outer(norm_vector⁻¹, 1)·Q`, `Cov = v·diag(1/u)·vᵀ`,
`Cx = R·Cov·Rᵀ`, decorrelated flux `R·f`, variance `diagonal(Cx)`. -/
def ex2d_patch_iter (sqrtf : ℚ → ℚ) (eigh : EighFn)
    (lsqr : (ℕ → ℕ → ℚ) → (ℕ → ℚ) → (ℕ → ℚ))
    (npix nbins : ℕ) (A : ℕ → ℕ → ℚ) (ivar img : ℕ → ℚ)
    (regularize : ℚ) (ndecorr : Bool) : Ex2dPatchIterResult :=
  let iCov : ℕ → ℕ → ℚ := fun a b => ∑ i in Finset.range npix, A i a * ivar i * A i b
  let y : ℕ → ℚ := fun a => ∑ i in Finset.range npix, A i a * ivar i * img i
  let f := lsqr iCov y
  let u := (eigh nbins iCov).1
  let v := (eigh nbins iCov).2
  let Q : ℕ → ℕ → ℚ := fun a b => ∑ k in Finset.range nbins, v a k * sqrtf (u k) * v b k
  let nv : ℕ → ℚ := fun a => ∑ b in Finset.range nbins, Q a b
  let R : ℕ → ℕ → ℚ := fun a b => (nv a)⁻¹ * Q a b
  let Cov : ℕ → ℕ → ℚ := fun a b => ∑ k in Finset.range nbins, v a k * (u k)⁻¹ * v b k
  let Cx : ℕ → ℕ → ℚ := fun a b =>
    ∑ c in Finset.range nbins, ∑ d in Finset.range nbins, R a c * Cov c d * R b d
  { flux := fun a => ∑ b in Finset.range nbins, R a b * f b
    ivar := fun a => Cx a a
    R := R
    xflux := f
    iCov := iCov
    optRegularize := regularize
    optNdecorr := ndecorr }

/-- C9: in the iterative-solve variant, the `flux`, `ivar`, resolution
matrix, raw-flux and `iCov` outputs of `ex2d_patch` are identical for any
two values of `regularize` (same image, inverse variance, design matrix and
numerical kernels): the parameter influences nothing and is only echoed back
in the returned options dictionary. -/
theorem claim_C9_regularize_noninterference (sqrtf : ℚ → ℚ) (eigh : EighFn)
    (lsqr : (ℕ → ℕ → ℚ) → (ℕ → ℚ) → (ℕ → ℚ))
    (npix nbins : ℕ) (A : ℕ → ℕ → ℚ) (ivar img : ℕ → ℚ)
    (r1 r2 : ℚ) (nd : Bool) :
    (ex2d_patch_iter sqrtf eigh lsqr npix nbins A ivar img r1 nd).flux =
      (ex2d_patch_iter sqrtf eigh lsqr npix nbins A ivar img r2 nd).flux ∧
    (ex2d_patch_iter sqrtf eigh lsqr npix nbins A ivar img r1 nd).ivar =
      (ex2d_patch_iter sqrtf eigh lsqr npix nbins A ivar img r2 nd).ivar ∧
    (ex2d_patch_iter sqrtf eigh lsqr npix nbins A ivar img r1 nd).R =
      (ex2d_patch_iter sqrtf eigh lsqr npix nbins A ivar img r2 nd).R ∧
    (ex2d_patch_iter sqrtf eigh lsqr npix nbins A ivar img r1 nd).xflux =
      (ex2d_patch_iter sqrtf eigh lsqr npix nbins A ivar img r2 nd).xflux ∧
    (ex2d_patch_iter sqrtf eigh lsqr npix nbins A ivar img r1 nd).iCov =
      (ex2d_patch_iter sqrtf eigh lsqr npix nbins A ivar img r2 nd).iCov ∧
    (ex2d_patch_iter sqrtf eigh lsqr npix nbins A ivar img r1 nd).optRegularize = r1 :=
  ⟨rfl, rfl, rfl, rfl, rfl, rfl⟩
